import Mathlib

/-!
Verification development for the UPolly repository.

The two cores of the repository are embedded shallowly:

* the aligner of `src/frontend/src/components/AudioProcessor.ts`
  (`tokenizeSentences`, `buildCharToWordMapping`,
  `processTranscriptionIntoSegments`), and
* the playback controller of `src/upolly/src/App.tsx`
  (`jumpToSentence`, `handleRepeatCountChange`, `handleRepeatModeChange`,
  `updateCurrentSentence`, `handleRepeatLogic`, and the audio event
  handlers).

JavaScript numbers are modelled as rationals (`ℚ`); the claims at stake do
not depend on floating-point rounding.  Strings are modelled as `List Char`.
React's `updateState` merges partial updates into the component state, and
every read of `state` inside one event handler sees the snapshot taken
before the handler ran; the embedding of the controller makes that
snapshot-read / merged-write behaviour explicit.
-/

namespace UPolly

/-- Whitespace test standing in for the JavaScript regex class for
whitespace (ASCII whitespace; the extra Unicode space characters that
JavaScript also accepts play no role in any claim). -/
def jsWs (c : Char) : Bool :=
  c == ' ' || c == '\t' || c == '\n' || c == '\r' || c == '\x0B' || c == '\x0C'

/-- Sentence-boundary punctuation of `tokenizeSentences`. -/
def isSentencePunct (c : Char) : Bool :=
  c == '.' || c == '!' || c == '?'

/-- Model of `String.prototype.trim`: drop whitespace from both ends. -/
def trimL (l : List Char) : List Char :=
  ((l.dropWhile jsWs).reverse.dropWhile jsWs).reverse

/-- Model of `text.replace` with a whitespace-run pattern replaced by a
single space: the flag records whether the previous character was
whitespace (so a run contributes one space only). -/
def collapseWsAux : Bool → List Char → List Char
  | _, [] => []
  | prevWs, c :: rest =>
    if jsWs c then
      if prevWs then collapseWsAux true rest
      else ' ' :: collapseWsAux true rest
    else c :: collapseWsAux false rest

/-- Whitespace-run collapsing used by `tokenizeSentences`. -/
def collapseWs (l : List Char) : List Char :=
  collapseWsAux false l

/-- Model of splitting on a whitespace run preceded by sentence
punctuation (the lookbehind split of `tokenizeSentences`).  `skipping`
is true while the whitespace run of a split point is being consumed,
`prev` is the previously consumed character (the lookbehind), `acc` the
current chunk in reverse. -/
def splitSentencesAux : Bool → Char → List Char → List Char → List (List Char)
  | _, _, acc, [] => [acc.reverse]
  | skipping, prev, acc, c :: rest =>
    if skipping then
      if jsWs c then splitSentencesAux true prev acc rest
      else splitSentencesAux false c [c] rest
    else if jsWs c && isSentencePunct prev then
      acc.reverse :: splitSentencesAux true c [] rest
    else splitSentencesAux false c (c :: acc) rest

/-- Embedding of `tokenizeSentences` of `AudioProcessor.ts`: normalise
whitespace, trim, split after sentence punctuation, keep the non-empty
trimmed chunks. -/
def tokenizeSentences (text : List Char) : List (List Char) :=
  let cleanText := trimL (collapseWs text)
  ((splitSentencesAux false ' ' [] cleanText).filter
      (fun s => 0 < (trimL s).length)).map trimL

/-- Word timestamp record of `AudioProcessor.ts`.  The source field
named `end` is a reserved word in Lean and is rendered `endT`. -/
structure WordTimestamp where
  word : List Char
  start : ℚ
  endT : ℚ
deriving DecidableEq

instance : Inhabited WordTimestamp := ⟨⟨[], 0, 0⟩⟩

/-- Transcription segment record of `AudioProcessor.ts`. -/
structure TranscriptionSegment where
  text : List Char
  words : List WordTimestamp
deriving DecidableEq

/-- Transcription result record of `AudioProcessor.ts`. -/
structure TranscriptionResult where
  segments : List TranscriptionSegment
  text : List Char
deriving DecidableEq

/-- Audio segment record of `AudioProcessor.ts`; the source id string
`segment_(i+1)` is modelled by the number `i + 1`. -/
structure AudioSegment where
  id : ℕ
  text : List Char
  startTime : ℚ
  endTime : ℚ
deriving DecidableEq

/-- Embedding of `buildCharToWordMapping`'s nested loops: word `i`
contributes its length many copies of `i`. -/
def buildCTW (i : ℕ) : List WordTimestamp → List ℕ
  | [] => []
  | w :: rest => List.replicate w.word.length i ++ buildCTW (i + 1) rest

/-- Embedding of `buildCharToWordMapping` of `AudioProcessor.ts`. -/
def buildCharToWordMapping (words : List WordTimestamp) : List ℕ :=
  buildCTW 0 words

/-- Occurrence test: the needle occurs in the haystack at position `p`. -/
def occursAt (hay needle : List Char) (p : ℕ) : Bool :=
  needle.isPrefixOf (hay.drop p)

/-- Model of `String.prototype.indexOf` with a start position: the first
position at or after `fromIdx` where the needle occurs, `none` standing
for the source's `-1`. -/
def indexOfFrom (hay needle : List Char) (fromIdx : ℕ) : Option ℕ :=
  ((List.range (hay.length + 1)).filter
      (fun p => decide (fromIdx ≤ p) && occursAt hay needle p)).head?

/-- Model of the JavaScript expression `x || 0` on a number `x`. -/
def jsOr0 (x : ℚ) : ℚ :=
  if x = 0 then 0 else x

/-- Embedding of the sentence loop of `processTranscriptionIntoSegments`:
`i` is the loop index (used for the segment id), `prevEnd` the monotone
search cursor. -/
def processLoop (fullText : List Char) (charToWord : List ℕ)
    (words : List WordTimestamp) :
    List (List Char) → ℕ → ℕ → List AudioSegment
  | [], _, _ => []
  | s :: rest, i, prevEnd =>
    let sentence := trimL s
    if sentence.length = 0 then
      processLoop fullText charToWord words rest (i + 1) prevEnd
    else
      match indexOfFrom fullText sentence prevEnd with
      | none => processLoop fullText charToWord words rest (i + 1) prevEnd
      | some start =>
        let e := start + sentence.length
        if start ≥ charToWord.length ∨ e - 1 ≥ charToWord.length then
          processLoop fullText charToWord words rest (i + 1) prevEnd
        else
          let wordStartIdx := charToWord.getD start 0
          let wordEndIdx := charToWord.getD (e - 1) 0
          let startTime := jsOr0 (words.getD wordStartIdx default).start
          let endTime := jsOr0 (words.getD wordEndIdx default).endT
          { id := i + 1, text := sentence,
            startTime := startTime, endTime := endTime } ::
            processLoop fullText charToWord words rest (i + 1) e

/-- Flattened word list gathered from all transcription segments, as at
the top of `processTranscriptionIntoSegments`. -/
def flatWords (result : TranscriptionResult) : List WordTimestamp :=
  (result.segments.map TranscriptionSegment.words).flatten

/-- Embedding of `processTranscriptionIntoSegments` of
`AudioProcessor.ts` (the `Promise` wrapper and the unused audio file
argument are dropped; the function resolves immediately with the
segment list). -/
def processTranscriptionIntoSegments (result : TranscriptionResult) :
    List AudioSegment :=
  let words := flatWords result
  if words.length = 0 then []
  else
    let fullText := trimL (((words.map WordTimestamp.word).flatten).filter
        (fun c => c != '\n'))
    let sentences := tokenizeSentences fullText
    let charToWord := buildCharToWordMapping words
    processLoop fullText charToWord words sentences 0 0

/-- Sentence record of `src/upolly/src/App.tsx`.  The source field named
`end` is a reserved word in Lean and is rendered `endT`. -/
structure Sentence where
  text : List Char
  start : ℚ
  endT : ℚ
deriving DecidableEq

instance : Inhabited Sentence := ⟨⟨[], 0, 0⟩⟩

/-- Repeat mode of `App.tsx`. -/
inductive RepeatMode where
  | off
  | sentence
  | all
deriving DecidableEq

/-- Playback-relevant part of the `AppState` of `App.tsx` (the upload,
mobile-detection and rendering fields are outside the modelled core). -/
structure AppState where
  sentences : List Sentence
  isPlaying : Bool
  currentSentenceIndex : ℤ
  currentTime : ℚ
  playbackSpeed : ℚ
  repeatMode : RepeatMode
  repeatCount : ℤ
  currentRepeat : ℤ
  isRepeating : Bool
  repeatSentenceIndex : ℤ
deriving DecidableEq

/-- State fields as initialised by `useState` in `App.tsx`, with a given
sentence list loaded (uploading a file installs the sentences and resets
the playback fields). -/
def initialState (sents : List Sentence) : AppState :=
  { sentences := sents
    isPlaying := false
    currentSentenceIndex := -1
    currentTime := 0
    playbackSpeed := 1
    repeatMode := RepeatMode.off
    repeatCount := 3
    currentRepeat := 0
    isRepeating := false
    repeatSentenceIndex := -1 }

/-- Commands the controller issues to the audio transport: a seek
(assignment to `currentTime`), `play()`, `pause()`, or an assignment to
`playbackRate`. -/
inductive Cmd where
  | seek (t : ℚ)
  | play
  | pause
  | setRate (r : ℚ)
deriving DecidableEq

/-- JavaScript array indexing `sentences[index]` with a possibly
negative or out-of-range index: `none` stands for `undefined`. -/
def getSent (l : List Sentence) (i : ℤ) : Option Sentence :=
  if h : 0 ≤ i ∧ i.toNat < l.length then some (l.get ⟨i.toNat, h.2⟩) else none

/-- Embedding of `jumpToSentence` of `App.tsx`: when the index denotes a
sentence, seek the transport to its start and reset the repeat cycle;
otherwise do nothing. -/
def jumpToSentence (index : ℤ) (s : AppState) : AppState × List Cmd :=
  match getSent s.sentences index with
  | some sent =>
    ({ s with currentSentenceIndex := index
              currentRepeat := 0
              isRepeating := false
              repeatSentenceIndex := -1 }, [Cmd.seek sent.start])
  | none => (s, [])

/-- Embedding of `handleRepeatModeChange` of `App.tsx`. -/
def handleRepeatModeChange (mode : RepeatMode) (s : AppState) : AppState :=
  { s with repeatMode := mode
           currentRepeat := 0
           isRepeating := false
           repeatSentenceIndex := -1 }

/-- Embedding of `handleRepeatCountChange` of `App.tsx`: the new count
is stored as given. -/
def handleRepeatCountChange (count : ℤ) (s : AppState) : AppState :=
  { s with repeatCount := count }

/-- Scan of `updateCurrentSentence`: the first sentence (from index `n`
on) whose closed time interval contains `t`, `-1` when none does. -/
def findSentenceAux (t : ℚ) : List Sentence → ℕ → ℤ
  | [], _ => -1
  | sent :: rest, n =>
    if sent.start ≤ t ∧ t ≤ sent.endT then (n : ℤ)
    else findSentenceAux t rest (n + 1)

/-- Index of the first sentence whose interval contains `t`. -/
def findSentence (l : List Sentence) (t : ℚ) : ℤ :=
  findSentenceAux t l 0

/-- Embedding of `updateCurrentSentence` of `App.tsx`, reading the
transport position `t`: record the time and highlight the first
containing sentence. -/
def updateCurrentSentence (t : ℚ) (s : AppState) : AppState :=
  { s with currentTime := t
           currentSentenceIndex := findSentence s.sentences t }

/-- Embedding of `handleRepeatLogic` of `App.tsx`.  All reads go to the
snapshot `snap` (the React state at the start of the event), all writes
are merged into the base state `b`; the deferred `setTimeout` seeks are
returned as commands.  The control flow mirrors the source: the early
returns, the fall-through from the cycle-start branch when
`currentRepeat >= repeatCount - 1`, the fall-through from the
cycle-finished branch into the final reset check, and the final reset
when a cycle is pinned to a different sentence. -/
def handleRepeatLogic (t : ℚ) (snap b : AppState) : AppState × List Cmd :=
  if snap.repeatMode ≠ RepeatMode.sentence ∨ snap.currentSentenceIndex < 0 then
    (b, [])
  else
    let currentSentence :=
      (getSent snap.sentences snap.currentSentenceIndex).getD default
    if t ≥ currentSentence.endT - 1 / 10 then
      if ¬ snap.isRepeating then
        let b1 := { b with isRepeating := true
                           repeatSentenceIndex := snap.currentSentenceIndex
                           currentRepeat := 1 }
        if snap.currentRepeat < snap.repeatCount - 1 then
          (b1, [Cmd.seek currentSentence.start])
        else
          (b1, [])
      else
        if snap.repeatSentenceIndex = snap.currentSentenceIndex then
          if snap.currentRepeat < snap.repeatCount then
            ({ b with currentRepeat := snap.currentRepeat + 1 },
              [Cmd.seek currentSentence.start])
          else
            let b2 := { b with isRepeating := false
                               repeatSentenceIndex := -1
                               currentRepeat := 0 }
            if snap.currentSentenceIndex < (snap.sentences.length : ℤ) - 1 then
              (b2, [Cmd.seek ((getSent snap.sentences
                  (snap.currentSentenceIndex + 1)).getD default).start])
            else
              (b2, [Cmd.pause])
        else
          ({ b with isRepeating := false
                    repeatSentenceIndex := -1
                    currentRepeat := 0 }, [])
    else
      if 0 ≤ snap.currentSentenceIndex ∧
          snap.repeatSentenceIndex ≠ snap.currentSentenceIndex ∧
          snap.isRepeating then
        ({ b with isRepeating := false
                  repeatSentenceIndex := -1
                  currentRepeat := 0 }, [])
      else
        (b, [])

/-- Embedding of the `timeupdate` handler of `App.tsx`: run
`updateCurrentSentence`, then `handleRepeatLogic`, both reading the same
snapshot. -/
def handleTimeUpdate (t : ℚ) (s : AppState) : AppState × List Cmd :=
  handleRepeatLogic t s (updateCurrentSentence t s)

/-- Embedding of `handlePlay` of `App.tsx`. -/
def handlePlay (s : AppState) : AppState × List Cmd :=
  ({ s with isPlaying := true }, [Cmd.setRate s.playbackSpeed])

/-- Embedding of `handlePause` of `App.tsx`. -/
def handlePause (s : AppState) : AppState × List Cmd :=
  ({ s with isPlaying := false }, [])

/-- Embedding of `handleEnded` of `App.tsx`: reset the playback fields;
with repeat mode `all`, additionally seek to time 0 and resume. -/
def handleEnded (s : AppState) : AppState × List Cmd :=
  ({ s with isPlaying := false
            currentSentenceIndex := -1
            currentRepeat := 0
            isRepeating := false
            repeatSentenceIndex := -1 },
    if s.repeatMode = RepeatMode.all then [Cmd.seek 0, Cmd.play] else [])

/-- Events the controller reacts to: a `timeupdate` position sample, an
interval tick (which only runs `updateCurrentSentence`), a user jump, a
mode or count change, and the transport lifecycle events. -/
inductive Op where
  | sample (t : ℚ)
  | tick (t : ℚ)
  | jump (i : ℤ)
  | setMode (m : RepeatMode)
  | setCount (n : ℤ)
  | play
  | pause
  | ended
deriving DecidableEq

/-- One controller step: the state transition and the commands issued. -/
def step (s : AppState) : Op → AppState × List Cmd
  | Op.sample t => handleTimeUpdate t s
  | Op.tick t => (updateCurrentSentence t s, [])
  | Op.jump i => jumpToSentence i s
  | Op.setMode m => (handleRepeatModeChange m s, [])
  | Op.setCount n => (handleRepeatCountChange n s, [])
  | Op.play => handlePlay s
  | Op.pause => handlePause s
  | Op.ended => handleEnded s

/-- State after a sequence of events. -/
def run (s : AppState) : List Op → AppState
  | [] => s
  | op :: rest => run (step s op).1 rest

/-- Commands issued along a sequence of events, in order. -/
def runCmds (s : AppState) : List Op → List Cmd
  | [] => []
  | op :: rest => (step s op).2 ++ runCmds (step s op).1 rest

/-- All states visited while processing a sequence of events, the start
state included. -/
def statesList (s : AppState) : List Op → List AppState
  | [] => [s]
  | op :: rest => s :: statesList (step s op).1 rest

/-- Containment test of the `updateCurrentSentence` scan: `t` lies in
the closed interval of the sentence. -/
def containsT (sent : Sentence) (t : ℚ) : Prop :=
  sent.start ≤ t ∧ t ≤ sent.endT

/-- Event list of the repeat-exactness scenario: four boundary crossings
of the active sentence, each preceded by a block of in-sentence
samples. -/
def c1Ops (ts₁ ts₂ ts₃ ts₄ : List ℚ) (u₁ u₂ u₃ u₄ : ℚ) : List Op :=
  (ts₁.map Op.sample ++ [Op.sample u₁]) ++
    ((ts₂.map Op.sample ++ [Op.sample u₂]) ++
      ((ts₃.map Op.sample ++ [Op.sample u₃]) ++
        (ts₄.map Op.sample ++ [Op.sample u₄])))

/-- State invariant of the amended C2 claim: the active index is below
the list length; while a cycle is in progress its pinned index is a
valid sentence index and the counter lies in `[1, repeatCount]`; while
idle the counter is 0 and the pinned index is `-1`; and the repeat
count is at least 1. -/
def RepeatInv (s : AppState) : Prop :=
  s.currentSentenceIndex < (s.sentences.length : ℤ) ∧
    (s.isRepeating = true → 0 ≤ s.repeatSentenceIndex ∧
      s.repeatSentenceIndex < (s.sentences.length : ℤ) ∧
      1 ≤ s.currentRepeat ∧ s.currentRepeat ≤ s.repeatCount) ∧
    (s.isRepeating = false →
      s.currentRepeat = 0 ∧ s.repeatSentenceIndex = -1) ∧
    1 ≤ s.repeatCount

/-- Restriction on a single event under which the amended C2 invariant
is preserved: a repeat-count change must carry a value of at least 1
and must not happen mid-cycle. -/
def OpOK (s : AppState) : Op → Prop
  | Op.setCount n => 1 ≤ n ∧ s.isRepeating = false
  | _ => True

/-- Restriction on a whole event list, state by state. -/
def RunOK : AppState → List Op → Prop
  | _, [] => True
  | s, op :: rest => OpOK s op ∧ RunOK (step s op).1 rest

/-! Concrete data used by witnesses and counterexamples. -/

/-- Transcription of "Hi. Bye." with word timestamps 0–1 and 1–2. -/
def hiByeResult : TranscriptionResult :=
  ⟨[⟨[], [⟨['H', 'i', '.'], 0, 1⟩, ⟨[' ', 'B', 'y', 'e', '.'], 1, 2⟩]⟩], []⟩

/-- Transcription consisting of one zero-duration word. -/
def zeroDurResult : TranscriptionResult :=
  ⟨[⟨[], [⟨['H', 'i', '.'], 0, 0⟩]⟩], []⟩

/-- Words whose text contains a double space, so that the normalised
sentence "Good morning." does not occur verbatim in the reference
text. -/
def gmWords : List WordTimestamp :=
  [⟨['G', 'o', 'o', 'd', ' ', ' ', 'm', 'o', 'r', 'n', 'i', 'n', 'g', '.'],
    0, 1⟩, ⟨[' ', 'B', 'y', 'e', '.'], 1, 2⟩]

/-- Reference text built from `gmWords` the way
`processTranscriptionIntoSegments` builds it. -/
def gmFullText : List Char :=
  trimL (((gmWords.map WordTimestamp.word).flatten).filter
    (fun c => c != '\n'))

/-- The normalised first sentence of `gmWords`. -/
def gmSentence : List Char :=
  ['G', 'o', 'o', 'd', ' ', 'm', 'o', 'r', 'n', 'i', 'n', 'g', '.']

/-- The second sentence of `gmWords`. -/
def byeSentence : List Char := ['B', 'y', 'e', '.']

/-- Two sentences at times 0–1 and 2–3. -/
def twoSents : List Sentence := [⟨[], 0, 1⟩, ⟨[], 2, 3⟩]

/-- Two sentences with a gap between them (times 0–1 and 3–4). -/
def gapSents : List Sentence := [⟨[], 0, 1⟩, ⟨[], 3, 4⟩]

/-- Sentence-repeat run whose last position sample falls in the gap
between the two sentences while a repeat cycle is in progress. -/
def gapOps : List Op :=
  [Op.setMode RepeatMode.sentence, Op.sample (1 / 2), Op.sample 1,
    Op.sample (3 / 2)]

/-- Sentence-repeat run that starts a cycle and stops mid-cycle. -/
def midCycleOps : List Op :=
  [Op.setMode RepeatMode.sentence, Op.sample (1 / 2), Op.sample 1]

/-- Sentence-repeat run that sets the repeat count to 0 and then lets a
cycle start. -/
def zeroCountOps : List Op :=
  [Op.setMode RepeatMode.sentence, Op.setCount 0, Op.sample (1 / 2),
    Op.sample 1]

/-- The `x || 0` guard is the identity on rationals. -/
theorem jsOr0_eq (x : ℚ) : jsOr0 x = x := by
  unfold jsOr0
  split_ifs with h
  · exact h.symm
  · rfl

/-- Entries of the character-to-word map lie between the starting word
index and the end of the word list. -/
theorem buildCTW_mem (ws : List WordTimestamp) :
    ∀ i, ∀ x ∈ buildCTW i ws, i ≤ x ∧ x < i + ws.length := by
  induction ws with
  | nil => intro i x hx; simp [buildCTW] at hx
  | cons w rest ih =>
    intro i x hx
    simp only [buildCTW, List.mem_append] at hx
    rcases hx with hx | hx
    · rw [List.eq_of_mem_replicate hx]
      simp only [List.length_cons]
      omega
    · obtain ⟨h1, h2⟩ := ih (i + 1) x hx
      simp only [List.length_cons]
      omega

/-- A constant list is sorted. -/
theorem sorted_replicate (n a : ℕ) :
    (List.replicate n a).Sorted (· ≤ ·) := by
  induction n with
  | zero => simp
  | succ n ih =>
    rw [List.replicate_succ]
    refine List.sorted_cons.mpr ⟨?_, ih⟩
    intro b hb
    rw [List.eq_of_mem_replicate hb]

/-- The character-to-word map is sorted: later characters belong to
later (or equal) words. -/
theorem buildCTW_sorted : ∀ (ws : List WordTimestamp) (i : ℕ),
    (buildCTW i ws).Sorted (· ≤ ·)
  | [], _ => List.sorted_nil
  | w :: rest, i => by
    rw [buildCTW]
    refine List.pairwise_append.mpr
      ⟨sorted_replicate _ _, buildCTW_sorted rest (i + 1), ?_⟩
    intro a ha b hb
    rw [List.eq_of_mem_replicate ha]
    have := (buildCTW_mem rest (i + 1) b hb).1
    omega

/-- Reading a sorted list at a smaller index gives a smaller or equal
value. -/
theorem sorted_getD_mono (l : List ℕ) (hs : l.Sorted (· ≤ ·)) (a b : ℕ)
    (hab : a ≤ b) (hb : b < l.length) : l.getD a 0 ≤ l.getD b 0 := by
  have ha : a < l.length := lt_of_le_of_lt hab hb
  rw [List.getD_eq_getElem l 0 ha, List.getD_eq_getElem l 0 hb]
  rcases eq_or_lt_of_le hab with rfl | hlt
  · exact le_refl _
  · exact List.pairwise_iff_get.mp hs ⟨a, ha⟩ ⟨b, hb⟩ hlt

/-- A list read within bounds yields an element of the list. -/
theorem getD_mem_of_lt (l : List ℕ) (a : ℕ) (ha : a < l.length) :
    l.getD a 0 ∈ l := by
  rw [List.getD_eq_getElem l 0 ha]
  exact List.getElem_mem ha

/-- A word read within bounds is one of the words. -/
theorem getD_word_mem (ws : List WordTimestamp) (a : ℕ)
    (ha : a < ws.length) : ws.getD a default ∈ ws := by
  rw [List.getD_eq_getElem ws default ha]
  exact List.getElem_mem ha

/-- A found occurrence lies at or after the search cursor. -/
theorem indexOfFrom_some_le (hay needle : List Char) (fromIdx p : ℕ)
    (h : indexOfFrom hay needle fromIdx = some p) : fromIdx ≤ p := by
  unfold indexOfFrom at h
  have hp := List.mem_of_mem_head? (by rw [h]; rfl)
  have := (List.mem_filter.mp hp).2
  simp only [Bool.and_eq_true, decide_eq_true_eq] at this
  exact this.1

/-- Every segment the sentence loop emits carries the start time of the
word under some map position `p` at or after the cursor and the end
time of the word under a later map position `q`, both in range. -/
theorem processLoop_mem (fullText : List Char) (ctw : List ℕ)
    (words : List WordTimestamp) :
    ∀ (sents : List (List Char)) (i c : ℕ) (seg : AudioSegment),
      seg ∈ processLoop fullText ctw words sents i c →
      ∃ p q : ℕ, c ≤ p ∧ p ≤ q ∧ p < ctw.length ∧ q < ctw.length ∧
        seg.startTime = jsOr0 (words.getD (ctw.getD p 0) default).start ∧
        seg.endTime = jsOr0 (words.getD (ctw.getD q 0) default).endT
  | [], _, _, _, hmem => by simp [processLoop] at hmem
  | s :: rest, i, c, seg, hmem => by
    rw [processLoop] at hmem
    by_cases h0 : (trimL s).length = 0
    · rw [if_pos h0] at hmem
      exact processLoop_mem fullText ctw words rest (i + 1) c seg hmem
    rw [if_neg h0] at hmem
    split at hmem
    next =>
      exact processLoop_mem fullText ctw words rest (i + 1) c seg hmem
    next p hidx =>
      by_cases hgd : p ≥ ctw.length ∨ p + (trimL s).length - 1 ≥ ctw.length
      · rw [if_pos hgd] at hmem
        exact processLoop_mem fullText ctw words rest (i + 1) c seg hmem
      · rw [if_neg hgd] at hmem
        push_neg at hgd
        rcases List.mem_cons.mp hmem with rfl | hmem
        · refine ⟨p, p + (trimL s).length - 1,
            indexOfFrom_some_le fullText (trimL s) c p hidx,
            by omega, hgd.1, hgd.2, rfl, rfl⟩
        · obtain ⟨p', q', hc', hpq', hp', hq', hst', hen'⟩ :=
            processLoop_mem fullText ctw words rest (i + 1)
              (p + (trimL s).length) seg hmem
          have hcp := indexOfFrom_some_le fullText (trimL s) c p hidx
          exact ⟨p', q', by omega, hpq', hp', hq', hst', hen'⟩

/-- The start times of the emitted segments are non-decreasing. -/
theorem processLoop_sorted (fullText : List Char) (ctw : List ℕ)
    (words : List WordTimestamp)
    (hsorted : ctw.Sorted (· ≤ ·))
    (hlt : ∀ x ∈ ctw, x < words.length)
    (hmono : ∀ a b : ℕ, a ≤ b → b < words.length →
      (words.getD a default).start ≤ (words.getD b default).start) :
    ∀ (sents : List (List Char)) (i c : ℕ),
      ((processLoop fullText ctw words sents i c).map
        AudioSegment.startTime).Sorted (· ≤ ·)
  | [], _, _ => by simp [processLoop]
  | s :: rest, i, c => by
    rw [processLoop]
    by_cases h0 : (trimL s).length = 0
    · rw [if_pos h0]
      exact processLoop_sorted fullText ctw words hsorted hlt hmono rest
        (i + 1) c
    rw [if_neg h0]
    split
    next =>
      exact processLoop_sorted fullText ctw words hsorted hlt hmono rest
        (i + 1) c
    next p hidx =>
      by_cases hgd : p ≥ ctw.length ∨ p + (trimL s).length - 1 ≥ ctw.length
      · rw [if_pos hgd]
        exact processLoop_sorted fullText ctw words hsorted hlt hmono rest
          (i + 1) c
      · rw [if_neg hgd]
        push_neg at hgd
        simp only [List.map_cons]
        refine List.sorted_cons.mpr ⟨?_,
          processLoop_sorted fullText ctw words hsorted hlt hmono rest
            (i + 1) (p + (trimL s).length)⟩
        intro b hb
        simp only [List.mem_map] at hb
        obtain ⟨seg, hseg, rfl⟩ := hb
        obtain ⟨p', q', hc', hpq', hp', hq', hst', _⟩ :=
          processLoop_mem fullText ctw words rest (i + 1)
            (p + (trimL s).length) seg hseg
        rw [hst', jsOr0_eq, jsOr0_eq]
        have hple : p ≤ p' := by omega
        have hctw : ctw.getD p 0 ≤ ctw.getD p' 0 :=
          sorted_getD_mono ctw hsorted p p' hple hp'
        exact hmono _ _ hctw (hlt _ (getD_mem_of_lt ctw p' hp'))

/-- Every emitted segment starts strictly before it ends, provided
every word does. -/
theorem processLoop_start_lt_end (fullText : List Char) (ctw : List ℕ)
    (words : List WordTimestamp)
    (hsorted : ctw.Sorted (· ≤ ·))
    (hltw : ∀ x ∈ ctw, x < words.length)
    (hmono : ∀ a b : ℕ, a ≤ b → b < words.length →
      (words.getD a default).start ≤ (words.getD b default).start)
    (hwlt : ∀ w ∈ words, w.start < w.endT)
    (sents : List (List Char)) (i c : ℕ) (seg : AudioSegment)
    (hmem : seg ∈ processLoop fullText ctw words sents i c) :
    seg.startTime < seg.endTime := by
  obtain ⟨p, q, _, hpq, hp, hq, hst, hen⟩ :=
    processLoop_mem fullText ctw words sents i c seg hmem
  rw [hst, hen, jsOr0_eq, jsOr0_eq]
  have hctw : ctw.getD p 0 ≤ ctw.getD q 0 :=
    sorted_getD_mono ctw hsorted p q hpq hq
  have hqlen : ctw.getD q 0 < words.length :=
    hltw _ (getD_mem_of_lt ctw q hq)
  calc (words.getD (ctw.getD p 0) default).start
      ≤ (words.getD (ctw.getD q 0) default).start :=
        hmono _ _ hctw hqlen
    _ < (words.getD (ctw.getD q 0) default).endT :=
        hwlt _ (getD_word_mem words _ hqlen)


/-- Counterexample for C3: a word sequence with non-negative,
non-decreasing times (a single zero-duration word) on which the
aligner returns a segment with `startTime = endTime`, so the strict
inequality of the claim fails. -/
theorem align_strict_cex :
    processTranscriptionIntoSegments zeroDurResult =
      [{ id := 1, text := ['H', 'i', '.'], startTime := 0, endTime := 0 }] ∧
      ¬ ((0 : ℚ) < (0 : ℚ)) := by
  decide

/-- C3 (amended): for word sequences in which every word starts
strictly before it ends and word start times are non-decreasing in
index order, the segments returned by the aligner are in non-decreasing
`startTime` order and every segment satisfies `startTime < endTime`.
(Under the claim's weaker hypothesis — merely non-negative,
non-decreasing times — a zero-duration word yields a segment with
`startTime = endTime`; see the counterexample.) -/
theorem align_sorted_amended (result : TranscriptionResult)
    (hmono : ∀ a b : ℕ, a ≤ b → b < (flatWords result).length →
      ((flatWords result).getD a default).start ≤
        ((flatWords result).getD b default).start)
    (hwlt : ∀ w ∈ flatWords result, w.start < w.endT) :
    ((processTranscriptionIntoSegments result).map
      AudioSegment.startTime).Sorted (· ≤ ·) ∧
      ∀ seg ∈ processTranscriptionIntoSegments result,
        seg.startTime < seg.endTime := by
  have hsorted : (buildCharToWordMapping (flatWords result)).Sorted (· ≤ ·) :=
    buildCTW_sorted (flatWords result) 0
  have hlt : ∀ x ∈ buildCharToWordMapping (flatWords result),
      x < (flatWords result).length := by
    intro x hx
    have := (buildCTW_mem (flatWords result) 0 x hx).2
    omega
  simp only [processTranscriptionIntoSegments]
  by_cases hw : (flatWords result).length = 0
  · simp [hw]
  · rw [if_neg hw]
    exact ⟨processLoop_sorted _ _ _ hsorted hlt hmono _ 0 0,
      fun seg hseg => processLoop_start_lt_end _ _ _ hsorted hlt hmono hwlt
        _ 0 0 seg hseg⟩

/-- Witness for C3 (amended): the "Hi. Bye." transcription yields
segments with sorted start times, each starting strictly before it
ends. -/
theorem align_sorted_amended_witness :
    ((processTranscriptionIntoSegments hiByeResult).map
      AudioSegment.startTime).Sorted (· ≤ ·) ∧
      ∀ seg ∈ processTranscriptionIntoSegments hiByeResult,
        seg.startTime < seg.endTime :=
  align_sorted_amended hiByeResult
    (by
      intro a b hab hb
      have hb2 : b < 2 := by
        have : (flatWords hiByeResult).length = 2 := by decide
        omega
      interval_cases b <;> interval_cases a <;> decide)
    (by decide)

/-- C7: a sentence whose (trimmed) text has no occurrence in the
reference text at or after the search cursor is skipped: the sentence
loop's result on `s :: rest` equals its result on `rest` with the same
cursor (the loop index advancing past the skipped sentence), so every
other sentence is aligned exactly as before and one unmatched sentence
never fails the whole alignment. -/
theorem processLoop_skip_unmatched (fullText : List Char) (ctw : List ℕ)
    (words : List WordTimestamp) (s : List Char) (rest : List (List Char))
    (i c : ℕ) (h : indexOfFrom fullText (trimL s) c = none) :
    processLoop fullText ctw words (s :: rest) i c =
      processLoop fullText ctw words rest (i + 1) c := by
  rw [processLoop]
  by_cases h0 : (trimL s).length = 0
  · rw [if_pos h0]
  · rw [if_neg h0, h]

/-- Witness for C7: with the double-space words, the sentence
"Good morning." has no occurrence in the reference text, and the loop
on both sentences equals the loop on "Bye." alone. -/
theorem processLoop_skip_unmatched_witness :
    indexOfFrom gmFullText (trimL gmSentence) 0 = none ∧
      processLoop gmFullText (buildCharToWordMapping gmWords) gmWords
        [gmSentence, byeSentence] 0 0 =
      processLoop gmFullText (buildCharToWordMapping gmWords) gmWords
        [byeSentence] 1 0 :=
  ⟨by decide,
    processLoop_skip_unmatched gmFullText (buildCharToWordMapping gmWords)
      gmWords gmSentence [byeSentence] 0 0 (by decide)⟩


/-- The scan returns `n + i` when `i` is the first index (relative to
the remaining list) whose sentence contains `t`. -/
theorem findSentenceAux_eq_of_first (t : ℚ) :
    ∀ (l : List Sentence) (n : ℕ) (i : ℕ) (hi : i < l.length),
      containsT (l.get ⟨i, hi⟩) t →
      (∀ k (hk : k < l.length), k < i → ¬ containsT (l.get ⟨k, hk⟩) t) →
      findSentenceAux t l n = ((n + i : ℕ) : ℤ)
  | [], _, i, hi, _, _ => absurd hi (by simp)
  | sent :: rest, n, 0, _, hcon, _ => by
    have hcon' : sent.start ≤ t ∧ t ≤ sent.endT := by
      simpa [containsT] using hcon
    rw [findSentenceAux, if_pos hcon']
    simp
  | sent :: rest, n, i + 1, hi, hcon, hpre => by
    have h0 : ¬ (sent.start ≤ t ∧ t ≤ sent.endT) := by
      have := hpre 0 (by simp) (Nat.succ_pos _)
      simpa [containsT] using this
    rw [findSentenceAux, if_neg h0]
    have hi' : i < rest.length := by simpa using Nat.lt_of_succ_lt_succ hi
    have hcon' : containsT (rest.get ⟨i, hi'⟩) t := by
      simpa using hcon
    have hpre' : ∀ k (hk : k < rest.length), k < i →
        ¬ containsT (rest.get ⟨k, hk⟩) t := by
      intro k hk hki
      have := hpre (k + 1) (by simpa using Nat.succ_lt_succ hk)
        (Nat.succ_lt_succ hki)
      simpa using this
    have := findSentenceAux_eq_of_first t rest (n + 1) i hi' hcon' hpre'
    rw [this]
    push_cast
    ring

/-- The scan returns `-1` when no sentence contains `t`. -/
theorem findSentenceAux_eq_neg_one (t : ℚ) :
    ∀ (l : List Sentence) (n : ℕ),
      (∀ k (hk : k < l.length), ¬ containsT (l.get ⟨k, hk⟩) t) →
      findSentenceAux t l n = -1
  | [], _, _ => rfl
  | sent :: rest, n, hnone => by
    have h0 : ¬ (sent.start ≤ t ∧ t ≤ sent.endT) := by
      have := hnone 0 (by simp)
      simpa [containsT] using this
    rw [findSentenceAux, if_neg h0]
    refine findSentenceAux_eq_neg_one t rest (n + 1) ?_
    intro k hk
    have := hnone (k + 1) (by simpa using Nat.succ_lt_succ hk)
    simpa using this

/-- In a list whose sentences each satisfy `start ≤ endT` and whose
consecutive sentences satisfy `endT ≤ start`, every earlier sentence
ends no later than a later sentence starts. -/
theorem endT_le_start_of_lt (l : List Sentence)
    (hchain : List.Chain' (fun a b => a.endT ≤ b.start) l)
    (hwfle : ∀ s ∈ l, s.start ≤ s.endT) :
    ∀ j k (hjk : j < k) (hk : k < l.length),
      (l.get ⟨j, lt_trans hjk hk⟩).endT ≤ (l.get ⟨k, hk⟩).start := by
  intro j k
  induction k with
  | zero => omega
  | succ k ih =>
    intro hjk hk
    have hk' : k < l.length := lt_trans (Nat.lt_succ_self k) hk
    have hstep : (l.get ⟨k, hk'⟩).endT ≤ (l.get ⟨k + 1, hk⟩).start :=
      List.chain'_iff_get.mp hchain k (by omega)
    rcases Nat.lt_succ_iff_lt_or_eq.mp hjk with h | h
    · have h1 := ih h hk'
      have h2 := hwfle (l.get ⟨k, hk'⟩) (l.get_mem _ _)
      exact le_trans h1 (le_trans h2 hstep)
    · subst h
      exact hstep

/-- The scan resolves `t` to index `i` whenever sentence `i` contains
`t` strictly after its start, in a list with ordered, non-overlapping
sentences. -/
theorem findSentence_eq_of_mem (sents : List Sentence)
    (hchain : List.Chain' (fun a b => a.endT ≤ b.start) sents)
    (hwfle : ∀ s ∈ sents, s.start ≤ s.endT)
    (i : ℕ) (hi : i < sents.length) (t : ℚ)
    (ht1 : (sents.get ⟨i, hi⟩).start < t)
    (ht2 : t ≤ (sents.get ⟨i, hi⟩).endT) :
    findSentence sents t = (i : ℤ) := by
  have hpre : ∀ k (hk : k < sents.length), k < i →
      ¬ containsT (sents.get ⟨k, hk⟩) t := by
    intro k hk hki hcon
    have hle := endT_le_start_of_lt sents hchain hwfle k i hki hi
    have : t ≤ (sents.get ⟨i, hi⟩).start := le_trans hcon.2 hle
    exact absurd (lt_of_lt_of_le ht1 this) (lt_irrefl _)
  have := findSentenceAux_eq_of_first t sents 0 i hi ⟨le_of_lt ht1, ht2⟩ hpre
  simpa [findSentence] using this

/-- Array access at a natural-number index within bounds. -/
theorem getSent_natCast (l : List Sentence) (i : ℕ) (hi : i < l.length) :
    getSent l (i : ℤ) = some (l.get ⟨i, hi⟩) := by
  simp [getSent, hi]

/-- A position sample strictly inside the active sentence and strictly
before the boundary tolerance only records the time: the active index
stays `i` and the repeat fields are untouched (provided no cycle is
pinned to another sentence). -/
theorem sample_inside (sents : List Sentence)
    (hchain : List.Chain' (fun a b => a.endT ≤ b.start) sents)
    (hwfle : ∀ s ∈ sents, s.start ≤ s.endT)
    (i : ℕ) (hi : i < sents.length) (s : AppState) (t : ℚ)
    (hs : s.sentences = sents)
    (hcsi : s.currentSentenceIndex = (i : ℤ))
    (hmode : s.repeatMode = RepeatMode.sentence)
    (hpin : s.isRepeating = false ∨ s.repeatSentenceIndex = (i : ℤ))
    (ht1 : (sents.get ⟨i, hi⟩).start < t)
    (ht2 : t < (sents.get ⟨i, hi⟩).endT - 1 / 10) :
    step s (Op.sample t) =
      ({ s with currentTime := t, currentSentenceIndex := (i : ℤ) }, []) := by
  have hloc : findSentence sents t = (i : ℤ) :=
    findSentence_eq_of_mem sents hchain hwfle i hi t ht1 (by linarith)
  simp only [List.get_eq_getElem] at ht1 ht2
  rcases hpin with hp | hp <;>
    (simp [step, handleTimeUpdate, handleRepeatLogic, updateCurrentSentence,
      hs, hcsi, hmode, hloc, hp, getSent_natCast sents i hi,
      show ¬ ((i : ℤ) < 0) by omega]
     all_goals intro h
     all_goals linarith)

/-- A boundary sample while no cycle is in progress (with repeat count
3) starts the cycle: `currentRepeat` becomes 1 and a seek back to the
sentence start is issued. -/
theorem sample_boundary_start (sents : List Sentence)
    (hchain : List.Chain' (fun a b => a.endT ≤ b.start) sents)
    (hwfle : ∀ s ∈ sents, s.start ≤ s.endT)
    (i : ℕ) (hi : i < sents.length) (s : AppState) (u : ℚ)
    (hs : s.sentences = sents)
    (hcsi : s.currentSentenceIndex = (i : ℤ))
    (hmode : s.repeatMode = RepeatMode.sentence)
    (hrep : s.isRepeating = false)
    (hcr : s.currentRepeat = 0)
    (hrc : s.repeatCount = 3)
    (hlen : (sents.get ⟨i, hi⟩).start + 1 / 10 < (sents.get ⟨i, hi⟩).endT)
    (hu1 : (sents.get ⟨i, hi⟩).endT - 1 / 10 ≤ u)
    (hu2 : u ≤ (sents.get ⟨i, hi⟩).endT) :
    step s (Op.sample u) =
      ({ s with currentTime := u
                currentSentenceIndex := (i : ℤ)
                isRepeating := true
                repeatSentenceIndex := (i : ℤ)
                currentRepeat := 1 },
        [Cmd.seek (sents.get ⟨i, hi⟩).start]) := by
  have hloc : findSentence sents u = (i : ℤ) :=
    findSentence_eq_of_mem sents hchain hwfle i hi u (by linarith) hu2
  simp only [List.get_eq_getElem] at hlen hu1 hu2
  simp [step, handleTimeUpdate, handleRepeatLogic, updateCurrentSentence,
    hs, hcsi, hmode, hrep, hcr, hrc, hloc, getSent_natCast sents i hi,
    show ¬ ((i : ℤ) < 0) by omega,
    show (0 : ℤ) < 3 - 1 by norm_num]
  all_goals linarith

/-- A boundary sample while a cycle pinned to the active sentence has
`currentRepeat < repeatCount` increments the counter and seeks back to
the sentence start. -/
theorem sample_boundary_continue (sents : List Sentence)
    (hchain : List.Chain' (fun a b => a.endT ≤ b.start) sents)
    (hwfle : ∀ s ∈ sents, s.start ≤ s.endT)
    (i : ℕ) (hi : i < sents.length) (s : AppState) (u : ℚ)
    (hs : s.sentences = sents)
    (hcsi : s.currentSentenceIndex = (i : ℤ))
    (hmode : s.repeatMode = RepeatMode.sentence)
    (hrep : s.isRepeating = true)
    (hpin : s.repeatSentenceIndex = (i : ℤ))
    (hlt : s.currentRepeat < s.repeatCount)
    (hlen : (sents.get ⟨i, hi⟩).start + 1 / 10 < (sents.get ⟨i, hi⟩).endT)
    (hu1 : (sents.get ⟨i, hi⟩).endT - 1 / 10 ≤ u)
    (hu2 : u ≤ (sents.get ⟨i, hi⟩).endT) :
    step s (Op.sample u) =
      ({ s with currentTime := u
                currentSentenceIndex := (i : ℤ)
                currentRepeat := s.currentRepeat + 1 },
        [Cmd.seek (sents.get ⟨i, hi⟩).start]) := by
  have hloc : findSentence sents u = (i : ℤ) :=
    findSentence_eq_of_mem sents hchain hwfle i hi u (by linarith) hu2
  simp only [List.get_eq_getElem] at hlen hu1 hu2
  simp [step, handleTimeUpdate, handleRepeatLogic, updateCurrentSentence,
    hs, hcsi, hmode, hrep, hpin, hlt, hloc, getSent_natCast sents i hi,
    show ¬ ((i : ℤ) < 0) by omega]
  all_goals linarith

/-- A boundary sample while a cycle pinned to the active sentence has
exhausted its repeats ends the cycle and seeks to the start of the next
sentence. -/
theorem sample_boundary_done (sents : List Sentence)
    (hchain : List.Chain' (fun a b => a.endT ≤ b.start) sents)
    (hwfle : ∀ s ∈ sents, s.start ≤ s.endT)
    (i : ℕ) (hnext : i + 1 < sents.length) (s : AppState) (u : ℚ)
    (hs : s.sentences = sents)
    (hcsi : s.currentSentenceIndex = (i : ℤ))
    (hmode : s.repeatMode = RepeatMode.sentence)
    (hrep : s.isRepeating = true)
    (hpin : s.repeatSentenceIndex = (i : ℤ))
    (hge : ¬ s.currentRepeat < s.repeatCount)
    (hlen : (sents.get ⟨i, Nat.lt_of_succ_lt hnext⟩).start + 1 / 10 <
      (sents.get ⟨i, Nat.lt_of_succ_lt hnext⟩).endT)
    (hu1 : (sents.get ⟨i, Nat.lt_of_succ_lt hnext⟩).endT - 1 / 10 ≤ u)
    (hu2 : u ≤ (sents.get ⟨i, Nat.lt_of_succ_lt hnext⟩).endT) :
    step s (Op.sample u) =
      ({ s with currentTime := u
                currentSentenceIndex := (i : ℤ)
                isRepeating := false
                repeatSentenceIndex := -1
                currentRepeat := 0 },
        [Cmd.seek (sents.get ⟨i + 1, hnext⟩).start]) := by
  have hi := Nat.lt_of_succ_lt hnext
  have hloc : findSentence sents u = (i : ℤ) :=
    findSentence_eq_of_mem sents hchain hwfle i hi u (by linarith) hu2
  have hg2 : getSent sents ((i : ℤ) + 1) = some (sents.get ⟨i + 1, hnext⟩) := by
    have hcast : ((i : ℤ) + 1) = ((i + 1 : ℕ) : ℤ) := by push_cast; ring
    rw [hcast, getSent_natCast sents (i + 1) hnext]
  simp only [List.get_eq_getElem] at hlen hu1 hu2
  simp [step, handleTimeUpdate, handleRepeatLogic, updateCurrentSentence,
    hs, hcsi, hmode, hrep, hpin, hge, hloc, hg2,
    getSent_natCast sents i hi,
    show ¬ ((i : ℤ) < 0) by omega,
    show (i : ℤ) < (sents.length : ℤ) - 1 by omega]
  all_goals linarith

/-- Running an event list splits over append. -/
theorem run_append (l₁ l₂ : List Op) :
    ∀ s : AppState, run s (l₁ ++ l₂) = run (run s l₁) l₂ := by
  induction l₁ with
  | nil => intro s; rfl
  | cons op rest ih => intro s; simp only [List.cons_append, run]; exact ih _

/-- Commands of an event list split over append. -/
theorem runCmds_append (l₁ l₂ : List Op) :
    ∀ s : AppState,
      runCmds s (l₁ ++ l₂) = runCmds s l₁ ++ runCmds (run s l₁) l₂ := by
  induction l₁ with
  | nil => intro s; rfl
  | cons op rest ih =>
    intro s
    simp only [List.cons_append, runCmds, run, List.append_eq, ih,
      List.append_assoc]

/-- Running a single event is one step. -/
theorem run_singleton (s : AppState) (op : Op) :
    run s [op] = (step s op).1 := rfl

/-- Commands of a single event are the step's commands. -/
theorem runCmds_singleton (s : AppState) (op : Op) :
    runCmds s [op] = (step s op).2 := by
  simp [runCmds]

/-- A property preserved by every step along an event list holds at
every visited state. -/
theorem statesList_pres (P : AppState → Prop) :
    ∀ (ops : List Op) (s : AppState), P s →
      (∀ x op, P x → op ∈ ops → P (step x op).1) →
      ∀ x ∈ statesList s ops, P x
  | [], s, hP, _, x, hx => by
    simp only [statesList, List.mem_singleton] at hx
    exact hx ▸ hP
  | op :: rest, s, hP, hstep, x, hx => by
    simp only [statesList, List.mem_cons] at hx
    rcases hx with rfl | hx
    · exact hP
    · exact statesList_pres P rest (step s op).1
        (hstep s op hP (List.mem_cons_self op rest))
        (fun y o hy ho => hstep y o hy (List.mem_cons_of_mem op ho))
        x hx

/-- A block of position samples strictly inside the active sentence
(before the boundary tolerance) changes only `currentTime`, issues no
command, and every visited state differs from the start state only in
`currentTime`. -/
theorem run_inside_block (sents : List Sentence)
    (hchain : List.Chain' (fun a b => a.endT ≤ b.start) sents)
    (hwfle : ∀ s ∈ sents, s.start ≤ s.endT)
    (i : ℕ) (hi : i < sents.length) :
    ∀ (ts : List ℚ) (s : AppState),
      s.sentences = sents → s.currentSentenceIndex = (i : ℤ) →
      s.repeatMode = RepeatMode.sentence →
      (s.isRepeating = false ∨ s.repeatSentenceIndex = (i : ℤ)) →
      (∀ t ∈ ts, (sents.get ⟨i, hi⟩).start < t ∧
        t < (sents.get ⟨i, hi⟩).endT - 1 / 10) →
      ∃ ct : ℚ, run s (ts.map Op.sample) = { s with currentTime := ct } ∧
        runCmds s (ts.map Op.sample) = [] ∧
        ∀ x ∈ statesList s (ts.map Op.sample),
          ∃ ct2, x = { s with currentTime := ct2 }
  | [], s, _, _, _, _, _ => by
    refine ⟨s.currentTime, rfl, rfl, ?_⟩
    intro x hx
    simp only [List.map_nil, statesList, List.mem_singleton] at hx
    exact ⟨s.currentTime, hx⟩
  | t :: ts, s, hs, hcsi, hmode, hpin, hts => by
    have ht := hts t (List.mem_cons_self t ts)
    have hstep := sample_inside sents hchain hwfle i hi s t hs hcsi hmode hpin
      ht.1 ht.2
    have hcollapse :
        ({ s with currentTime := t, currentSentenceIndex := (i : ℤ) }
          : AppState) = { s with currentTime := t } := by
      rw [← hcsi]
    obtain ⟨ct, hrun, hcmds, hstates⟩ :=
      run_inside_block sents hchain hwfle i hi ts { s with currentTime := t }
        hs hcsi hmode hpin (fun t' ht' => hts t' (List.mem_cons_of_mem t ht'))
    refine ⟨ct, ?_, ?_, ?_⟩
    · simp only [List.map_cons, run, hstep, hcollapse]
      exact hrun
    · simp only [List.map_cons, runCmds, hstep, hcollapse, hcmds,
        List.nil_append]
    · intro x hx
      simp only [List.map_cons, statesList, hstep, hcollapse, List.mem_cons]
        at hx
      rcases hx with hx | hx
      · exact ⟨s.currentTime, hx⟩
      · exact hstates x hx

/-- A block of in-sentence samples followed by one boundary sample,
from an idle state with repeat count 3: the cycle starts
(`currentRepeat = 1`) and one seek back to the sentence start is
issued. -/
theorem stage_start (sents : List Sentence)
    (hchain : List.Chain' (fun a b => a.endT ≤ b.start) sents)
    (hwfle : ∀ s ∈ sents, s.start ≤ s.endT)
    (i : ℕ) (hi : i < sents.length) (s : AppState) (ts : List ℚ) (u : ℚ)
    (hs : s.sentences = sents)
    (hcsi : s.currentSentenceIndex = (i : ℤ))
    (hmode : s.repeatMode = RepeatMode.sentence)
    (hrep : s.isRepeating = false)
    (hcr : s.currentRepeat = 0)
    (hrc : s.repeatCount = 3)
    (hlen : (sents.get ⟨i, hi⟩).start + 1 / 10 < (sents.get ⟨i, hi⟩).endT)
    (hts : ∀ t ∈ ts, (sents.get ⟨i, hi⟩).start < t ∧
      t < (sents.get ⟨i, hi⟩).endT - 1 / 10)
    (hu1 : (sents.get ⟨i, hi⟩).endT - 1 / 10 ≤ u)
    (hu2 : u ≤ (sents.get ⟨i, hi⟩).endT) :
    run s (ts.map Op.sample ++ [Op.sample u]) =
      { s with currentTime := u
               currentSentenceIndex := (i : ℤ)
               isRepeating := true
               repeatSentenceIndex := (i : ℤ)
               currentRepeat := 1 } ∧
      runCmds s (ts.map Op.sample ++ [Op.sample u]) =
        [Cmd.seek (sents.get ⟨i, hi⟩).start] := by
  obtain ⟨a, hrun, hcmds, _⟩ := run_inside_block sents hchain hwfle i hi ts s
    hs hcsi hmode (Or.inl hrep) hts
  have hstep := sample_boundary_start sents hchain hwfle i hi
    { s with currentTime := a } u hs hcsi hmode hrep hcr hrc hlen hu1 hu2
  constructor
  · rw [run_append, hrun, run_singleton, hstep]
  · rw [runCmds_append, hcmds, hrun, runCmds_singleton, hstep]
    rfl

/-- A block of in-sentence samples followed by one boundary sample,
while a cycle pinned to the active sentence still has repeats left: the
counter is incremented and one seek back to the sentence start is
issued. -/
theorem stage_continue (sents : List Sentence)
    (hchain : List.Chain' (fun a b => a.endT ≤ b.start) sents)
    (hwfle : ∀ s ∈ sents, s.start ≤ s.endT)
    (i : ℕ) (hi : i < sents.length) (s : AppState) (ts : List ℚ) (u : ℚ)
    (hs : s.sentences = sents)
    (hcsi : s.currentSentenceIndex = (i : ℤ))
    (hmode : s.repeatMode = RepeatMode.sentence)
    (hrep : s.isRepeating = true)
    (hpin : s.repeatSentenceIndex = (i : ℤ))
    (hlt : s.currentRepeat < s.repeatCount)
    (hlen : (sents.get ⟨i, hi⟩).start + 1 / 10 < (sents.get ⟨i, hi⟩).endT)
    (hts : ∀ t ∈ ts, (sents.get ⟨i, hi⟩).start < t ∧
      t < (sents.get ⟨i, hi⟩).endT - 1 / 10)
    (hu1 : (sents.get ⟨i, hi⟩).endT - 1 / 10 ≤ u)
    (hu2 : u ≤ (sents.get ⟨i, hi⟩).endT) :
    run s (ts.map Op.sample ++ [Op.sample u]) =
      { s with currentTime := u
               currentSentenceIndex := (i : ℤ)
               currentRepeat := s.currentRepeat + 1 } ∧
      runCmds s (ts.map Op.sample ++ [Op.sample u]) =
        [Cmd.seek (sents.get ⟨i, hi⟩).start] := by
  obtain ⟨a, hrun, hcmds, _⟩ := run_inside_block sents hchain hwfle i hi ts s
    hs hcsi hmode (Or.inr hpin) hts
  have hstep := sample_boundary_continue sents hchain hwfle i hi
    { s with currentTime := a } u hs hcsi hmode hrep hpin hlt hlen hu1 hu2
  constructor
  · rw [run_append, hrun, run_singleton, hstep]
  · rw [runCmds_append, hcmds, hrun, runCmds_singleton, hstep]
    rfl

/-- A block of in-sentence samples followed by one boundary sample,
while a cycle pinned to the active sentence has exhausted its repeats:
the cycle ends and one seek to the next sentence's start is issued. -/
theorem stage_done (sents : List Sentence)
    (hchain : List.Chain' (fun a b => a.endT ≤ b.start) sents)
    (hwfle : ∀ s ∈ sents, s.start ≤ s.endT)
    (i : ℕ) (hnext : i + 1 < sents.length) (s : AppState) (ts : List ℚ)
    (u : ℚ)
    (hs : s.sentences = sents)
    (hcsi : s.currentSentenceIndex = (i : ℤ))
    (hmode : s.repeatMode = RepeatMode.sentence)
    (hrep : s.isRepeating = true)
    (hpin : s.repeatSentenceIndex = (i : ℤ))
    (hge : ¬ s.currentRepeat < s.repeatCount)
    (hlen : (sents.get ⟨i, Nat.lt_of_succ_lt hnext⟩).start + 1 / 10 <
      (sents.get ⟨i, Nat.lt_of_succ_lt hnext⟩).endT)
    (hts : ∀ t ∈ ts, (sents.get ⟨i, Nat.lt_of_succ_lt hnext⟩).start < t ∧
      t < (sents.get ⟨i, Nat.lt_of_succ_lt hnext⟩).endT - 1 / 10)
    (hu1 : (sents.get ⟨i, Nat.lt_of_succ_lt hnext⟩).endT - 1 / 10 ≤ u)
    (hu2 : u ≤ (sents.get ⟨i, Nat.lt_of_succ_lt hnext⟩).endT) :
    run s (ts.map Op.sample ++ [Op.sample u]) =
      { s with currentTime := u
               currentSentenceIndex := (i : ℤ)
               isRepeating := false
               repeatSentenceIndex := -1
               currentRepeat := 0 } ∧
      runCmds s (ts.map Op.sample ++ [Op.sample u]) =
        [Cmd.seek (sents.get ⟨i + 1, hnext⟩).start] := by
  obtain ⟨a, hrun, hcmds, _⟩ := run_inside_block sents hchain hwfle i
    (Nat.lt_of_succ_lt hnext) ts s hs hcsi hmode (Or.inr hpin) hts
  have hstep := sample_boundary_done sents hchain hwfle i hnext
    { s with currentTime := a } u hs hcsi hmode hrep hpin hge hlen hu1 hu2
  constructor
  · rw [run_append, hrun, run_singleton, hstep]
  · rw [runCmds_append, hcmds, hrun, runCmds_singleton, hstep]
    rfl

/-- Membership in one block-plus-crossing stage. -/
theorem mem_sampleStage {op : Op} {ts : List ℚ} {u : ℚ}
    (h : op ∈ ts.map Op.sample ++ [Op.sample u]) :
    ∃ t : ℚ, op = Op.sample t ∧ (t ∈ ts ∨ t = u) := by
  rcases List.mem_append.mp h with h | h
  · obtain ⟨t, ht, rfl⟩ := List.mem_map.mp h
    exact ⟨t, rfl, Or.inl ht⟩
  · rw [List.mem_singleton] at h
    exact ⟨u, h, Or.inr rfl⟩


/-- C1: with repeat mode `sentence` and repeat target 3, any sequence of
position samples that crosses the active sentence's end time four times
in succession (each crossing preceded by arbitrarily many in-sentence
samples, with no intervening jump or mode/count change) yields exactly
three seeks back to the sentence start — three completed repeats —
followed by one seek to the next sentence's start; `currentRepeat`
never exceeds 3 at any visited state, and the run ends with the cycle
cleared. -/
theorem repeat_count_exact (sents : List Sentence) (i : ℕ)
    (hnext : i + 1 < sents.length)
    (hwfle : ∀ s ∈ sents, s.start ≤ s.endT)
    (hchain : List.Chain' (fun a b => a.endT ≤ b.start) sents)
    (hlen : (sents.get ⟨i, Nat.lt_of_succ_lt hnext⟩).start + 1 / 10 <
      (sents.get ⟨i, Nat.lt_of_succ_lt hnext⟩).endT)
    (s₀ : AppState)
    (hs : s₀.sentences = sents)
    (hmode : s₀.repeatMode = RepeatMode.sentence)
    (hrc : s₀.repeatCount = 3)
    (hrep : s₀.isRepeating = false)
    (hcr : s₀.currentRepeat = 0)
    (hcsi : s₀.currentSentenceIndex = (i : ℤ))
    (ts₁ ts₂ ts₃ ts₄ : List ℚ) (u₁ u₂ u₃ u₄ : ℚ)
    (hts : ∀ t ∈ ts₁ ++ ts₂ ++ ts₃ ++ ts₄,
      (sents.get ⟨i, Nat.lt_of_succ_lt hnext⟩).start < t ∧
        t < (sents.get ⟨i, Nat.lt_of_succ_lt hnext⟩).endT - 1 / 10)
    (hu : ∀ u ∈ [u₁, u₂, u₃, u₄],
      (sents.get ⟨i, Nat.lt_of_succ_lt hnext⟩).endT - 1 / 10 ≤ u ∧
        u ≤ (sents.get ⟨i, Nat.lt_of_succ_lt hnext⟩).endT) :
    runCmds s₀ (c1Ops ts₁ ts₂ ts₃ ts₄ u₁ u₂ u₃ u₄) =
      [Cmd.seek (sents.get ⟨i, Nat.lt_of_succ_lt hnext⟩).start,
        Cmd.seek (sents.get ⟨i, Nat.lt_of_succ_lt hnext⟩).start,
        Cmd.seek (sents.get ⟨i, Nat.lt_of_succ_lt hnext⟩).start,
        Cmd.seek (sents.get ⟨i + 1, hnext⟩).start] ∧
      (∀ x ∈ statesList s₀ (c1Ops ts₁ ts₂ ts₃ ts₄ u₁ u₂ u₃ u₄),
        x.currentRepeat ≤ 3) ∧
      (run s₀ (c1Ops ts₁ ts₂ ts₃ ts₄ u₁ u₂ u₃ u₄)).isRepeating = false ∧
      (run s₀ (c1Ops ts₁ ts₂ ts₃ ts₄ u₁ u₂ u₃ u₄)).currentRepeat = 0 := by
  have hi : i < sents.length := Nat.lt_of_succ_lt hnext
  have hts₁ : ∀ t ∈ ts₁, (sents.get ⟨i, hi⟩).start < t ∧
      t < (sents.get ⟨i, hi⟩).endT - 1 / 10 :=
    fun t ht => hts t (by simp [ht])
  have hts₂ : ∀ t ∈ ts₂, (sents.get ⟨i, hi⟩).start < t ∧
      t < (sents.get ⟨i, hi⟩).endT - 1 / 10 :=
    fun t ht => hts t (by simp [ht])
  have hts₃ : ∀ t ∈ ts₃, (sents.get ⟨i, hi⟩).start < t ∧
      t < (sents.get ⟨i, hi⟩).endT - 1 / 10 :=
    fun t ht => hts t (by simp [ht])
  have hts₄ : ∀ t ∈ ts₄, (sents.get ⟨i, hi⟩).start < t ∧
      t < (sents.get ⟨i, hi⟩).endT - 1 / 10 :=
    fun t ht => hts t (by simp [ht])
  have hu₁ := hu u₁ (by simp)
  have hu₂ := hu u₂ (by simp)
  have hu₃ := hu u₃ (by simp)
  have hu₄ := hu u₄ (by simp)
  -- the four stages
  have st₁ := stage_start sents hchain hwfle i hi s₀ ts₁ u₁
    hs hcsi hmode hrep hcr hrc hlen hts₁ hu₁.1 hu₁.2
  have st₂ := stage_continue sents hchain hwfle i hi
    ({ s₀ with currentTime := u₁
               currentSentenceIndex := (i : ℤ)
               isRepeating := true
               repeatSentenceIndex := (i : ℤ)
               currentRepeat := 1 })
    ts₂ u₂ hs rfl hmode rfl rfl
    (by show (1 : ℤ) < s₀.repeatCount; rw [hrc]; norm_num)
    hlen hts₂ hu₂.1 hu₂.2
  have st₃ := stage_continue sents hchain hwfle i hi
    ({ s₀ with currentTime := u₂
               currentSentenceIndex := (i : ℤ)
               isRepeating := true
               repeatSentenceIndex := (i : ℤ)
               currentRepeat := 1 + 1 })
    ts₃ u₃ hs rfl hmode rfl rfl
    (by show (1 : ℤ) + 1 < s₀.repeatCount; rw [hrc]; norm_num)
    hlen hts₃ hu₃.1 hu₃.2
  have st₄ := stage_done sents hchain hwfle i hnext
    ({ s₀ with currentTime := u₃
               currentSentenceIndex := (i : ℤ)
               isRepeating := true
               repeatSentenceIndex := (i : ℤ)
               currentRepeat := 1 + 1 + 1 })
    ts₄ u₄ hs rfl hmode rfl rfl
    (by show ¬ (1 : ℤ) + 1 + 1 < s₀.repeatCount; rw [hrc]; norm_num)
    hlen hts₄ hu₄.1 hu₄.2
  have hrunAll : run s₀ (c1Ops ts₁ ts₂ ts₃ ts₄ u₁ u₂ u₃ u₄) =
      { s₀ with currentTime := u₄
                currentSentenceIndex := (i : ℤ)
                isRepeating := false
                repeatSentenceIndex := -1
                currentRepeat := 0 } := by
    rw [c1Ops, run_append, st₁.1, run_append, st₂.1, run_append, st₃.1,
      st₄.1]
  have hcmdsAll : runCmds s₀ (c1Ops ts₁ ts₂ ts₃ ts₄ u₁ u₂ u₃ u₄) =
      [Cmd.seek (sents.get ⟨i, hi⟩).start,
        Cmd.seek (sents.get ⟨i, hi⟩).start,
        Cmd.seek (sents.get ⟨i, hi⟩).start,
        Cmd.seek (sents.get ⟨i + 1, hnext⟩).start] := by
    rw [c1Ops, runCmds_append, st₁.2, st₁.1, runCmds_append, st₂.2, st₂.1,
      runCmds_append, st₃.2, st₃.1, st₄.2]
    rfl
  -- invariant along the run
  have hpres : ∀ x op, (x.sentences = sents ∧
        x.repeatMode = RepeatMode.sentence ∧ x.repeatCount = 3 ∧
        x.currentSentenceIndex = (i : ℤ) ∧
        ((x.isRepeating = false ∧ x.currentRepeat = 0) ∨
          (x.isRepeating = true ∧ x.repeatSentenceIndex = (i : ℤ) ∧
            1 ≤ x.currentRepeat ∧ x.currentRepeat ≤ 3))) →
      op ∈ c1Ops ts₁ ts₂ ts₃ ts₄ u₁ u₂ u₃ u₄ →
      ((step x op).1.sentences = sents ∧
        (step x op).1.repeatMode = RepeatMode.sentence ∧
        (step x op).1.repeatCount = 3 ∧
        (step x op).1.currentSentenceIndex = (i : ℤ) ∧
        (((step x op).1.isRepeating = false ∧
            (step x op).1.currentRepeat = 0) ∨
          ((step x op).1.isRepeating = true ∧
            (step x op).1.repeatSentenceIndex = (i : ℤ) ∧
            1 ≤ (step x op).1.currentRepeat ∧
            (step x op).1.currentRepeat ≤ 3))) := by
    intro x op hR hop
    obtain ⟨hxs, hxm, hxrc, hxcsi, hphase⟩ := hR
    have hsample : ∃ t : ℚ, op = Op.sample t ∧
        (((sents.get ⟨i, hi⟩).start < t ∧
            t < (sents.get ⟨i, hi⟩).endT - 1 / 10) ∨
          ((sents.get ⟨i, hi⟩).endT - 1 / 10 ≤ t ∧
            t ≤ (sents.get ⟨i, hi⟩).endT)) := by
      rcases List.mem_append.mp hop with h | h
      · obtain ⟨t, rfl, ht⟩ := mem_sampleStage h
        rcases ht with ht | rfl
        · exact ⟨t, rfl, Or.inl (hts₁ t ht)⟩
        · exact ⟨t, rfl, Or.inr hu₁⟩
      rcases List.mem_append.mp h with h | h
      · obtain ⟨t, rfl, ht⟩ := mem_sampleStage h
        rcases ht with ht | rfl
        · exact ⟨t, rfl, Or.inl (hts₂ t ht)⟩
        · exact ⟨t, rfl, Or.inr hu₂⟩
      rcases List.mem_append.mp h with h | h
      · obtain ⟨t, rfl, ht⟩ := mem_sampleStage h
        rcases ht with ht | rfl
        · exact ⟨t, rfl, Or.inl (hts₃ t ht)⟩
        · exact ⟨t, rfl, Or.inr hu₃⟩
      · obtain ⟨t, rfl, ht⟩ := mem_sampleStage h
        rcases ht with ht | rfl
        · exact ⟨t, rfl, Or.inl (hts₄ t ht)⟩
        · exact ⟨t, rfl, Or.inr hu₄⟩
    obtain ⟨t, rfl, hcase⟩ := hsample
    rcases hcase with hin | hbd
    · have hpin : x.isRepeating = false ∨ x.repeatSentenceIndex = (i : ℤ) := by
        rcases hphase with ⟨h1, _⟩ | ⟨_, h2, _⟩
        exacts [Or.inl h1, Or.inr h2]
      rw [sample_inside sents hchain hwfle i hi x t hxs hxcsi hxm hpin
        hin.1 hin.2]
      exact ⟨hxs, hxm, hxrc, rfl, hphase⟩
    · rcases hphase with ⟨hrep', hcr'⟩ | ⟨hrep', hpin', hge1, hle3⟩
      · rw [sample_boundary_start sents hchain hwfle i hi x t hxs hxcsi hxm
          hrep' hcr' hxrc hlen hbd.1 hbd.2]
        refine ⟨hxs, hxm, hxrc, rfl, Or.inr ⟨rfl, rfl, ?_, ?_⟩⟩
        · show (1 : ℤ) ≤ 1; norm_num
        · show (1 : ℤ) ≤ 3; norm_num
      · by_cases hlt : x.currentRepeat < x.repeatCount
        · rw [sample_boundary_continue sents hchain hwfle i hi x t hxs hxcsi
            hxm hrep' hpin' hlt hlen hbd.1 hbd.2]
          refine ⟨hxs, hxm, hxrc, rfl, Or.inr ⟨hrep', hpin', ?_, ?_⟩⟩
          · show (1 : ℤ) ≤ x.currentRepeat + 1; omega
          · show x.currentRepeat + 1 ≤ 3
            rw [hxrc] at hlt
            omega
        · rw [sample_boundary_done sents hchain hwfle i hnext x t hxs hxcsi
            hxm hrep' hpin' hlt hlen hbd.1 hbd.2]
          exact ⟨hxs, hxm, hxrc, rfl, Or.inl ⟨rfl, rfl⟩⟩
  have hbound : ∀ x ∈ statesList s₀ (c1Ops ts₁ ts₂ ts₃ ts₄ u₁ u₂ u₃ u₄),
      x.currentRepeat ≤ 3 := by
    intro x hx
    have hRx := statesList_pres
      (fun y => y.sentences = sents ∧ y.repeatMode = RepeatMode.sentence ∧
        y.repeatCount = 3 ∧ y.currentSentenceIndex = (i : ℤ) ∧
        ((y.isRepeating = false ∧ y.currentRepeat = 0) ∨
          (y.isRepeating = true ∧ y.repeatSentenceIndex = (i : ℤ) ∧
            1 ≤ y.currentRepeat ∧ y.currentRepeat ≤ 3)))
      (c1Ops ts₁ ts₂ ts₃ ts₄ u₁ u₂ u₃ u₄) s₀
      ⟨hs, hmode, hrc, hcsi, Or.inl ⟨hrep, hcr⟩⟩ hpres x hx
    rcases hRx.2.2.2.2 with ⟨_, h0⟩ | ⟨_, _, _, h3⟩
    · rw [h0]; norm_num
    · exact h3
  refine ⟨hcmdsAll, hbound, ?_, ?_⟩ <;> rw [hrunAll]

/-- The scan of `updateCurrentSentence` returns `-1` or an index at
least the running offset and below the end of the list. -/
theorem findSentenceAux_lt (t : ℚ) :
    ∀ (l : List Sentence) (n : ℕ),
      findSentenceAux t l n = -1 ∨
        ((n : ℤ) ≤ findSentenceAux t l n ∧
          findSentenceAux t l n < (n : ℤ) + l.length)
  | [], _ => Or.inl rfl
  | sent :: rest, n => by
    rw [findSentenceAux]
    split_ifs with h
    · refine Or.inr ⟨le_refl _, ?_⟩
      simp only [List.length_cons]
      push_cast
      omega
    · rcases findSentenceAux_lt t rest (n + 1) with h | ⟨h1, h2⟩
      · exact Or.inl h
      · refine Or.inr ⟨by push_cast at h1 ⊢; omega, ?_⟩
        simp only [List.length_cons]
        push_cast at h2 ⊢
        omega

/-- The located index is always below the list length (with `-1` for
"no sentence"). -/
theorem findSentence_lt_length (l : List Sentence) (t : ℚ) :
    findSentence l t < (l.length : ℤ) := by
  rcases findSentenceAux_lt t l 0 with h | ⟨_, h2⟩
  · rw [findSentence, h]; omega
  · rw [findSentence]; push_cast at h2; omega

/-- A successful sentence lookup implies the index is in range. -/
theorem getSent_eq_some (l : List Sentence) (i : ℤ) (sent : Sentence)
    (h : getSent l i = some sent) : 0 ≤ i ∧ i < (l.length : ℤ) := by
  by_cases hc : 0 ≤ i ∧ i.toNat < l.length
  · exact ⟨hc.1, by omega⟩
  · simp [getSent, hc] at h


/-- A position sample preserves the amended C2 invariant. -/
theorem step_sample_inv (s : AppState) (t : ℚ) (hInv : RepeatInv s) :
    RepeatInv (step s (Op.sample t)).1 := by
  obtain ⟨hI1, hI2, hI3, hI4⟩ := hInv
  have hfind := findSentence_lt_length s.sentences t
  by_cases hg : s.repeatMode ≠ RepeatMode.sentence ∨ s.currentSentenceIndex < 0
  · simp only [step, handleTimeUpdate, handleRepeatLogic,
      updateCurrentSentence, if_pos hg]
    exact ⟨hfind, hI2, hI3, hI4⟩
  have hg2 := hg
  push_neg at hg2
  by_cases hbd : t ≥
      ((getSent s.sentences s.currentSentenceIndex).getD default).endT - 1 / 10
  · by_cases hrep : s.isRepeating = true
    · by_cases hpin : s.repeatSentenceIndex = s.currentSentenceIndex
      · by_cases hlt : s.currentRepeat < s.repeatCount
        · simp only [step, handleTimeUpdate, handleRepeatLogic,
            updateCurrentSentence, if_neg hg,
            if_pos hbd, if_neg (not_not_intro hrep), if_pos hpin,
            if_pos hlt]
          obtain ⟨ha, hb, hc, hd⟩ := hI2 hrep
          exact ⟨hfind, fun _ => ⟨ha, hb,
              by show (1 : ℤ) ≤ s.currentRepeat + 1; omega,
              by show s.currentRepeat + 1 ≤ s.repeatCount; omega⟩,
            fun hb' => absurd hb' (by simp [hrep]), hI4⟩
        · by_cases hnx : s.currentSentenceIndex < (s.sentences.length : ℤ) - 1
          · simp only [step, handleTimeUpdate, handleRepeatLogic,
              updateCurrentSentence, if_neg hg,
              if_pos hbd, if_neg (not_not_intro hrep), if_pos hpin,
              if_neg hlt, if_pos hnx]
            exact ⟨hfind, fun hb' => Bool.noConfusion hb',
              fun _ => ⟨rfl, rfl⟩, hI4⟩
          · simp only [step, handleTimeUpdate, handleRepeatLogic,
              updateCurrentSentence, if_neg hg,
              if_pos hbd, if_neg (not_not_intro hrep), if_pos hpin,
              if_neg hlt, if_neg hnx]
            exact ⟨hfind, fun hb' => Bool.noConfusion hb',
              fun _ => ⟨rfl, rfl⟩, hI4⟩
      · simp only [step, handleTimeUpdate, handleRepeatLogic,
          updateCurrentSentence, if_neg hg,
          if_pos hbd, if_neg (not_not_intro hrep), if_neg hpin]
        exact ⟨hfind, fun hb' => Bool.noConfusion hb',
          fun _ => ⟨rfl, rfl⟩, hI4⟩
    · by_cases hc4 : s.currentRepeat < s.repeatCount - 1
      · simp only [step, handleTimeUpdate, handleRepeatLogic,
          updateCurrentSentence, if_neg hg,
          if_pos hbd, if_pos hrep, if_pos hc4]
        exact ⟨hfind, fun _ => ⟨hg2.2, hI1, le_refl 1, hI4⟩,
          fun hb' => Bool.noConfusion hb', hI4⟩
      · simp only [step, handleTimeUpdate, handleRepeatLogic,
          updateCurrentSentence, if_neg hg,
          if_pos hbd, if_pos hrep, if_neg hc4]
        exact ⟨hfind, fun _ => ⟨hg2.2, hI1, le_refl 1, hI4⟩,
          fun hb' => Bool.noConfusion hb', hI4⟩
  · by_cases hrs : 0 ≤ s.currentSentenceIndex ∧
        s.repeatSentenceIndex ≠ s.currentSentenceIndex ∧ s.isRepeating = true
    · simp only [step, handleTimeUpdate, handleRepeatLogic,
        updateCurrentSentence, if_neg hg, if_neg hbd,
        if_pos hrs]
      exact ⟨hfind, fun hb' => Bool.noConfusion hb',
        fun _ => ⟨rfl, rfl⟩, hI4⟩
    · simp only [step, handleTimeUpdate, handleRepeatLogic,
        updateCurrentSentence, if_neg hg, if_neg hbd,
        if_neg hrs]
      exact ⟨hfind, hI2, hI3, hI4⟩

/-- Every restricted event preserves the amended C2 invariant. -/
theorem step_preserves_inv (s : AppState) (op : Op) (hInv : RepeatInv s)
    (hok : OpOK s op) : RepeatInv (step s op).1 := by
  obtain ⟨hI1, hI2, hI3, hI4⟩ := hInv
  cases op with
  | sample t => exact step_sample_inv s t ⟨hI1, hI2, hI3, hI4⟩
  | tick t =>
    exact ⟨findSentence_lt_length s.sentences t, hI2, hI3, hI4⟩
  | jump i =>
    cases hgs : getSent s.sentences i with
    | none =>
      have hstep : step s (Op.jump i) = (s, []) := by
        simp [step, jumpToSentence, hgs]
      rw [hstep]
      exact ⟨hI1, hI2, hI3, hI4⟩
    | some sent =>
      have hstep : step s (Op.jump i) =
          ({ s with currentSentenceIndex := i
                    currentRepeat := 0
                    isRepeating := false
                    repeatSentenceIndex := -1 }, [Cmd.seek sent.start]) := by
        simp [step, jumpToSentence, hgs]
      rw [hstep]
      have hbnd := getSent_eq_some s.sentences i sent hgs
      exact ⟨hbnd.2, fun hb' => Bool.noConfusion hb',
        fun _ => ⟨rfl, rfl⟩, hI4⟩
  | setMode m =>
    exact ⟨hI1, fun hb' => Bool.noConfusion hb', fun _ => ⟨rfl, rfl⟩, hI4⟩
  | setCount n =>
    obtain ⟨hn, hrep⟩ := hok
    refine ⟨hI1, fun hb' => ?_, fun _ => hI3 hrep, hn⟩
    have h := show s.isRepeating = true from hb'
    rw [hrep] at h
    exact Bool.noConfusion h
  | play => exact ⟨hI1, hI2, hI3, hI4⟩
  | pause => exact ⟨hI1, hI2, hI3, hI4⟩
  | ended =>
    refine ⟨by show (-1 : ℤ) < (s.sentences.length : ℤ); omega,
      fun hb' => Bool.noConfusion hb', fun _ => ⟨rfl, rfl⟩, hI4⟩

/-- The amended C2 invariant holds at every state of a restricted run
started in an invariant state. -/
theorem repeatInv_run :
    ∀ (ops : List Op) (s : AppState), RepeatInv s → RunOK s ops →
      ∀ x ∈ statesList s ops, RepeatInv x
  | [], s, hInv, _, x, hx => by
    simp only [statesList, List.mem_singleton] at hx
    exact hx ▸ hInv
  | op :: rest, s, hInv, hok, x, hx => by
    simp only [statesList, List.mem_cons] at hx
    rcases hx with rfl | hx
    · exact hInv
    · exact repeatInv_run rest (step s op).1
        (step_preserves_inv s op hInv hok.1) hok.2 x hx

/-- The end state of a run is among the visited states. -/
theorem run_mem_statesList :
    ∀ (ops : List Op) (s : AppState), run s ops ∈ statesList s ops
  | [], s => by simp [run, statesList]
  | op :: rest, s => by
    simp only [run, statesList, List.mem_cons]
    exact Or.inr (run_mem_statesList rest (step s op).1)

/-- Witness for C1: sentences at 0–1 and 2–3, repeat mode `sentence`,
repeat target 3, active index 0; four samples at the boundary time 1
produce three seeks back to 0 and then one seek to 2, and the run ends
with the cycle cleared. -/
theorem repeat_count_exact_witness :
    runCmds { initialState twoSents with
        repeatMode := RepeatMode.sentence
        currentSentenceIndex := 0 }
      (c1Ops [] [] [] [] 1 1 1 1) =
      [Cmd.seek 0, Cmd.seek 0, Cmd.seek 0, Cmd.seek 2] ∧
      (∀ x ∈ statesList { initialState twoSents with
          repeatMode := RepeatMode.sentence
          currentSentenceIndex := 0 } (c1Ops [] [] [] [] 1 1 1 1),
        x.currentRepeat ≤ 3) ∧
      (run { initialState twoSents with
          repeatMode := RepeatMode.sentence
          currentSentenceIndex := 0 }
        (c1Ops [] [] [] [] 1 1 1 1)).isRepeating = false := by
  have h := repeat_count_exact twoSents 0 (by norm_num [twoSents])
    (by decide)
    (by norm_num [twoSents, List.chain'_cons])
    (by show (0 : ℚ) + 1 / 10 < 1; norm_num)
    { initialState twoSents with
        repeatMode := RepeatMode.sentence
        currentSentenceIndex := 0 }
    rfl rfl rfl rfl rfl rfl
    [] [] [] [] 1 1 1 1
    (by simp)
    (by
      intro u hu
      simp only [List.mem_cons, List.not_mem_nil, or_false] at hu
      rcases hu with rfl | rfl | rfl | rfl <;>
        exact ⟨by show (1 : ℚ) - 1 / 10 ≤ 1; norm_num,
          by show (1 : ℚ) ≤ 1; norm_num⟩)
  refine ⟨?_, h.2.1, h.2.2.1⟩
  have h1 := h.1
  simpa [twoSents] using h1




/-! Claim theorems. -/

/-- C5: for every in-range index `i` and every controller state —
including states mid-cycle — `jumpToSentence i` sets the active index to
`i`, seeks the transport to the sentence's start time, and resets the
repeat-cycle state (`isRepeating = false`, `currentRepeat = 0`). -/
theorem jumpToSentence_in_range (s : AppState) (i : ℤ) (sent : Sentence)
    (h : getSent s.sentences i = some sent) :
    jumpToSentence i s =
      ({ s with currentSentenceIndex := i
                currentRepeat := 0
                isRepeating := false
                repeatSentenceIndex := -1 }, [Cmd.seek sent.start]) := by
  simp [jumpToSentence, h]

/-- Witness for C5: jumping to index 1 of the two-sentence list from a
mid-cycle state lands on sentence 1, seeks to its start time 3, and
clears the cycle. -/
theorem jumpToSentence_in_range_witness :
    jumpToSentence 1
        { initialState gapSents with
            currentSentenceIndex := 0
            isRepeating := true
            currentRepeat := 1
            repeatSentenceIndex := 0 } =
      ({ initialState gapSents with
            currentSentenceIndex := 1
            currentRepeat := 0
            isRepeating := false
            repeatSentenceIndex := -1 }, [Cmd.seek 3]) := by
  have h := jumpToSentence_in_range
    { initialState gapSents with
        currentSentenceIndex := 0
        isRepeating := true
        currentRepeat := 1
        repeatSentenceIndex := 0 } 1 ⟨[], 3, 4⟩ (by decide)
  simpa using h

/-- C8: for every index that denotes no sentence (negative, past the
end, or any index into an empty list), `jumpToSentence` is a no-op: the
state is returned unchanged and no command is issued. -/
theorem jumpToSentence_out_of_range (s : AppState) (i : ℤ)
    (h : getSent s.sentences i = none) :
    jumpToSentence i s = (s, []) := by
  simp [jumpToSentence, h]

/-- Witness for C8: jumping to index -1 with the two-sentence list
loaded changes nothing and issues no command. -/
theorem jumpToSentence_out_of_range_witness :
    jumpToSentence (-1) (initialState gapSents) =
      (initialState gapSents, []) :=
  jumpToSentence_out_of_range (initialState gapSents) (-1) (by decide)

/-- C9: when the transport reports `ended` with repeat mode `all`, the
controller seeks to time 0 and issues `play()`; with any other repeat
mode the `ended` handler issues no command at all, so playback is not
restarted. -/
theorem handleEnded_repeat_all (s : AppState) :
    (s.repeatMode = RepeatMode.all →
        (handleEnded s).2 = [Cmd.seek 0, Cmd.play]) ∧
      (s.repeatMode ≠ RepeatMode.all → (handleEnded s).2 = []) := by
  constructor <;> intro h <;> simp [handleEnded, h]

/-- Witness for C9: from the initial state in mode `all`, `ended` emits
a seek to 0 followed by `play()`; in mode `off` it emits nothing. -/
theorem handleEnded_repeat_all_witness :
    (handleEnded { initialState gapSents with
        repeatMode := RepeatMode.all }).2 = [Cmd.seek 0, Cmd.play] ∧
      (handleEnded (initialState gapSents)).2 = [] := by
  refine ⟨(handleEnded_repeat_all _).1 rfl, (handleEnded_repeat_all _).2 ?_⟩
  decide

/-- C10 (implicit frame effect): `handleRepeatCountChange` changes only
the `repeatCount` field; the sentence list, playback fields, the active
index and the whole repeat-cycle state (`isRepeating`, `currentRepeat`,
`repeatSentenceIndex`) are untouched, so changing the count mid-cycle
does not reset or cancel the cycle. -/
theorem handleRepeatCountChange_frame (n : ℤ) (s : AppState) :
    (handleRepeatCountChange n s).sentences = s.sentences ∧
      (handleRepeatCountChange n s).isPlaying = s.isPlaying ∧
      (handleRepeatCountChange n s).currentSentenceIndex =
        s.currentSentenceIndex ∧
      (handleRepeatCountChange n s).currentTime = s.currentTime ∧
      (handleRepeatCountChange n s).playbackSpeed = s.playbackSpeed ∧
      (handleRepeatCountChange n s).repeatMode = s.repeatMode ∧
      (handleRepeatCountChange n s).currentRepeat = s.currentRepeat ∧
      (handleRepeatCountChange n s).isRepeating = s.isRepeating ∧
      (handleRepeatCountChange n s).repeatSentenceIndex =
        s.repeatSentenceIndex := by
  simp [handleRepeatCountChange]

/-- Counterexample for C4: calling `handleRepeatCountChange` with the
out-of-range count 0 stores 0 — the value is not clamped to 1. -/
theorem handleRepeatCountChange_no_clamp_cex :
    (0 : ℤ) < 1 ∧
      (handleRepeatCountChange 0 (initialState [])).repeatCount = 0 ∧
      (handleRepeatCountChange 0 (initialState [])).repeatCount ≠ 1 := by
  decide

/-- C4 (amended): `handleRepeatCountChange` stores its argument as the
new `repeatCount` unchanged, for every argument; no clamping to 1 takes
place, so a count below 1 is stored as given. -/
theorem handleRepeatCountChange_stores (n : ℤ) (s : AppState) :
    (handleRepeatCountChange n s).repeatCount = n := by
  simp [handleRepeatCountChange]

/-- C6: the locate step of `updateCurrentSentence` always selects the
first sentence in list order whose closed interval contains the sampled
time; consequently, for a (data-model conforming: `start < endT`,
ordered, non-overlapping) sentence list in which sentence `i` ends
exactly where sentence `i + 1` starts, a sample at that shared boundary
time resolves to the earlier index `i`, not `i + 1`. -/
theorem locate_first_containing (sents : List Sentence) (i : ℕ)
    (hi : i + 1 < sents.length)
    (hwf : ∀ s ∈ sents, s.start < s.endT)
    (hchain : List.Chain' (fun a b => a.endT ≤ b.start) sents)
    (_hshare : (sents.get ⟨i, Nat.lt_of_succ_lt hi⟩).endT =
      (sents.get ⟨i + 1, hi⟩).start) :
    (∀ (t : ℚ) (j : ℕ) (hj : j < sents.length),
        containsT (sents.get ⟨j, hj⟩) t →
        (∀ k (hk : k < sents.length), k < j →
          ¬ containsT (sents.get ⟨k, hk⟩) t) →
        findSentence sents t = (j : ℤ)) ∧
      findSentence sents ((sents.get ⟨i, Nat.lt_of_succ_lt hi⟩).endT) =
        (i : ℤ) := by
  have hwfle : ∀ s ∈ sents, s.start ≤ s.endT :=
    fun s hs => le_of_lt (hwf s hs)
  constructor
  · intro t j hj hcon hpre
    have := findSentenceAux_eq_of_first t sents 0 j hj hcon hpre
    simpa [findSentence] using this
  · have hi' := Nat.lt_of_succ_lt hi
    refine findSentence_eq_of_mem sents hchain hwfle i hi' _ ?_ le_rfl
    exact hwf (sents.get ⟨i, hi'⟩) (sents.get_mem _ _)

/-- Witness for C6: with sentences spanning 0–5 and 5–9, a sample at
exactly the shared boundary time 5 resolves to index 0. -/
theorem locate_first_containing_witness :
    findSentence [(⟨[], 0, 5⟩ : Sentence), ⟨[], 5, 9⟩] 5 = 0 := by
  have h := (locate_first_containing [(⟨[], 0, 5⟩ : Sentence), ⟨[], 5, 9⟩] 0
    (by decide) (by decide) (by norm_num [List.chain'_cons]) (by decide)).2
  simpa using h

/-- C2 (amended): for every run of the controller from the initial
state in which `setRepeatTarget` is only invoked with values at least 1
and never while a cycle is in progress, after every operation: if
`isRepeating` is true then the cycle's pinned index
`repeatSentenceIndex` is a valid sentence index and `currentRepeat`
lies within `[0, repeatCount]` (indeed within `[1, repeatCount]`).
The claim's clause about the active index itself fails — a sample in a
gap sets `currentSentenceIndex = -1` without ending the cycle (see the
counterexample) — so the valid-index guarantee attaches to the pinned
`repeatSentenceIndex`. -/
theorem repeat_invariant_amended (sents : List Sentence) (ops : List Op)
    (hok : RunOK (initialState sents) ops) :
    ∀ x ∈ statesList (initialState sents) ops, x.isRepeating = true →
      0 ≤ x.repeatSentenceIndex ∧
        x.repeatSentenceIndex < (x.sentences.length : ℤ) ∧
        0 ≤ x.currentRepeat ∧ x.currentRepeat ≤ x.repeatCount := by
  intro x hx hrep
  have hInv0 : RepeatInv (initialState sents) := by
    refine ⟨?_, fun hb => Bool.noConfusion hb, fun _ => ⟨rfl, rfl⟩, ?_⟩
    · show (-1 : ℤ) < (sents.length : ℤ)
      omega
    · show (1 : ℤ) ≤ 3
      norm_num
  obtain ⟨h1, h2, h3, h4⟩ :=
    (repeatInv_run ops (initialState sents) hInv0 hok x hx).2.1 hrep
  exact ⟨h1, h2, by omega, h4⟩

/-- Witness for C2 (amended): after entering a repeat cycle on the
two-sentence list, the pinned index is a valid sentence index and the
counter lies within the repeat target. -/
theorem repeat_invariant_amended_witness :
    0 ≤ (run (initialState gapSents) midCycleOps).repeatSentenceIndex ∧
      (run (initialState gapSents) midCycleOps).repeatSentenceIndex <
        ((run (initialState gapSents) midCycleOps).sentences.length : ℤ) ∧
      0 ≤ (run (initialState gapSents) midCycleOps).currentRepeat ∧
      (run (initialState gapSents) midCycleOps).currentRepeat ≤
        (run (initialState gapSents) midCycleOps).repeatCount := by
  refine repeat_invariant_amended gapSents midCycleOps ?_ _
    (run_mem_statesList _ _) ?_
  · simp [RunOK, OpOK]
  · norm_num [run, step, midCycleOps, gapSents, handleTimeUpdate,
      handleRepeatLogic, updateCurrentSentence, findSentence,
      findSentenceAux, getSent, initialState, handleRepeatModeChange]

/-- Counterexample for C2: the stated invariant fails on two reachable
runs.  In the first, a position sample in the gap between sentences
while a cycle is in progress leaves `isRepeating = true` with the active
index `-1` (no sentence).  In the second, a repeat target of 0 is
stored unclamped and the first boundary hit sets `currentRepeat = 1`,
exceeding the target. -/
theorem repeat_invariant_cex :
    (run (initialState gapSents) gapOps).isRepeating = true ∧
      getSent (run (initialState gapSents) gapOps).sentences
        (run (initialState gapSents) gapOps).currentSentenceIndex = none ∧
      (run (initialState gapSents) zeroCountOps).isRepeating = true ∧
      ¬ (run (initialState gapSents) zeroCountOps).currentRepeat ≤
          (run (initialState gapSents) zeroCountOps).repeatCount := by
  norm_num [run, step, gapOps, zeroCountOps, gapSents, handleTimeUpdate,
    handleRepeatLogic, updateCurrentSentence, findSentence, findSentenceAux,
    getSent, initialState, handleRepeatModeChange, handleRepeatCountChange]

end UPolly
